import Mathlib

/-!
Shallow embedding of the numerical pipeline in src/analysis.py: the Monte Carlo
option-pricing simulator, the analytical Black-Scholes comparison, the matrix
benchmark, and the terminal-price distribution statistics. Machine floats are
modelled as real numbers; the random draws are an arbitrary real-valued table.
-/

namespace Analysis

noncomputable section

open Finset

/-- Market and contract scalar parameters of monte_carlo_option_pricing
(source defaults: S0=100.0, K=105.0, T=1.0, r=0.05, sigma=0.2). -/
structure SimParams where
  S0 : ℝ
  K : ℝ
  T : ℝ
  r : ℝ
  sigma : ℝ

/-- Time increment, source line 41: dt = T / n_steps. -/
def dt (p : SimParams) (n_steps : ℕ) : ℝ := p.T / n_steps

/-- Drift term, source line 49: drift = (r - 0.5 * sigma**2) * dt. -/
def drift (p : SimParams) (n_steps : ℕ) : ℝ := (p.r - 0.5 * p.sigma ^ 2) * dt p n_steps

/-- Diffusion table, source line 50: diffusion = sigma * sqrt(dt) * Z, where
Z is the table of standard-normal draws (modelled as an arbitrary real table,
indexed step-then-path as in the source shape (n_steps, n_sims)). -/
def diffusion (p : SimParams) (n_steps : ℕ) (Z : ℕ → ℕ → ℝ) (s j : ℕ) : ℝ :=
  p.sigma * Real.sqrt (dt p n_steps) * Z s j

/-- Price paths, source line 53: price_paths = S0 * exp(cumsum(drift + diffusion, axis=0)).
Row t of the cumulative sum along the time axis is the sum of rows 0..t. -/
def pricePaths (p : SimParams) (n_steps : ℕ) (Z : ℕ → ℕ → ℝ) (t j : ℕ) : ℝ :=
  p.S0 * Real.exp (∑ s ∈ Finset.range (t + 1), (drift p n_steps + diffusion p n_steps Z s j))

/-- Terminal prices, source line 56: ST = price_paths[-1, :], i.e. row n_steps - 1. -/
def ST (p : SimParams) (n_steps : ℕ) (Z : ℕ → ℕ → ℝ) (j : ℕ) : ℝ :=
  pricePaths p n_steps Z (n_steps - 1) j

/-- Payoffs, source line 59: payoffs = maximum(ST - K, 0). -/
def payoffs (p : SimParams) (n_steps : ℕ) (Z : ℕ → ℕ → ℝ) (j : ℕ) : ℝ :=
  max (ST p n_steps Z j - p.K) 0

/-- Mean of a family of n values, as np.mean over a 1-d array of length n. -/
def npMeanFn (n : ℕ) (f : ℕ → ℝ) : ℝ := (∑ j ∈ Finset.range n, f j) / n

/-- Standard deviation of a family of n values, as np.std over a 1-d array of
length n: numpy default ddof=0, the population convention (divide by n). -/
def npStdFn (n : ℕ) (f : ℕ → ℝ) : ℝ :=
  Real.sqrt ((∑ j ∈ Finset.range n, (f j - npMeanFn n f) ^ 2) / n)

/-- Discounted option price estimate, source line 62:
option_price = exp(-r * T) * mean(payoffs). -/
def optionPrice (p : SimParams) (n_steps n_sims : ℕ) (Z : ℕ → ℕ → ℝ) : ℝ :=
  Real.exp (-p.r * p.T) * npMeanFn n_sims (payoffs p n_steps Z)

/-- Standard error, source line 65: std_error = std(payoffs) / sqrt(n_sims). -/
def stdError (p : SimParams) (n_steps n_sims : ℕ) (Z : ℕ → ℕ → ℝ) : ℝ :=
  npStdFn n_sims (payoffs p n_steps Z) / Real.sqrt n_sims

/-- Confidence half-width, source line 66: confidence_interval = 1.96 * std_error. -/
def confidenceInterval95 (p : SimParams) (n_steps n_sims : ℕ) (Z : ℕ → ℕ → ℝ) : ℝ :=
  1.96 * stdError p n_steps n_sims Z

/-- Terminal price vector as returned in the result dict (one entry per path). -/
def terminalPrices (p : SimParams) (n_steps n_sims : ℕ) (Z : ℕ → ℕ → ℝ) : List ℝ :=
  List.ofFn (fun j : Fin n_sims => ST p n_steps Z j)

/-- Result record of monte_carlo_option_pricing, source lines 71-78 (elapsed
wall-clock time is not modelled). -/
structure SimResult where
  option_price : ℝ
  std_error : ℝ
  confidence_interval_95 : ℝ
  simulations : ℕ
  terminal_prices : List ℝ

/-- Body of monte_carlo_option_pricing, source lines 20-78. -/
def monteCarloOptionPricing (p : SimParams) (n_steps n_sims : ℕ) (Z : ℕ → ℕ → ℝ) :
    SimResult where
  option_price := optionPrice p n_steps n_sims Z
  std_error := stdError p n_steps n_sims Z
  confidence_interval_95 := confidenceInterval95 p n_steps n_sims Z
  simulations := n_sims
  terminal_prices := terminalPrices p n_steps n_sims Z

/-- Failure modes of a simulator run. invalidParameter is modelled from the
spec (the failure condition named in sections 4.1 and 7; the source defines no
such error and contains no validation). zeroDivision models the Python
ZeroDivisionError raised by dt = T / n_steps at source line 41 when
n_steps = 0. -/
inductive SimError where
  | invalidParameter
  | zeroDivision

/-- Entry into the simulator with an explicit error channel. The source body
of monte_carlo_option_pricing (lines 20-78) is straight-line code with no
parameter validation and no raise statement; its only failing operation for
nonnegative counts is the division dt = T / n_steps at line 41, which raises
ZeroDivisionError when n_steps = 0 before any simulation work. Otherwise the
run returns the result record. -/
def monteCarloRun (p : SimParams) (n_steps n_sims : ℕ) (Z : ℕ → ℕ → ℝ) :
    Except SimError SimResult :=
  if n_steps = 0 then Except.error SimError.zeroDivision
  else Except.ok (monteCarloOptionPricing p n_steps n_sims Z)

/-- Default parameters fixed in the source, lines 21-25 and 129. -/
def defaultParams : SimParams where
  S0 := 100.0
  K := 105.0
  T := 1.0
  r := 0.05
  sigma := 0.2

/- ### Matrix computation benchmark, source lines 80-106. -/

/-- Matrix product C = np.dot(A, B), source line 94, for the size-5000 square
random matrices A and B of lines 90-91 (the standard-normal draws are modelled
as arbitrary real matrices). -/
def matrixProduct (A B : Matrix (Fin 5000) (Fin 5000) ℝ) : Matrix (Fin 5000) (Fin 5000) ℝ :=
  A * B

/-- Leading 1000 x 1000 submatrix C[:1000, :1000], source line 97. -/
def leadingSubmatrix (C : Matrix (Fin 5000) (Fin 5000) ℝ) : Matrix (Fin 1000) (Fin 1000) ℝ :=
  C.submatrix (Fin.castLE (by norm_num)) (Fin.castLE (by norm_num))

/-- Eigenvalues of a real square matrix as computed by np.linalg.eigvals: the
complex roots (with multiplicity) of the characteristic polynomial of the
matrix viewed over the complex numbers. -/
def eigenvalues (M : Matrix (Fin 1000) (Fin 1000) ℝ) : Multiset ℂ :=
  (M.map Complex.ofReal).charpoly.roots

/-- Maximum modulus among the eigenvalues, np.max(np.abs(eigenvalues)),
source line 105. -/
def maxEigenvalue (A B : Matrix (Fin 5000) (Fin 5000) ℝ) : ℝ :=
  sSup (Complex.abs '' {z | z ∈ eigenvalues (leadingSubmatrix (matrixProduct A B))})

/- ### Terminal price distribution statistics, source lines 156-166. -/

/-- Ascending sort of the data, underlying the numpy order-statistic
reductions (median, percentile). -/
def sortData (data : List ℝ) : List ℝ := List.insertionSort (· ≤ ·) data

/-- Virtual index q/100 * (n - 1) used by np.percentile (default linear
interpolation method) on a data set of length n. -/
def ppos (data : List ℝ) (q : ℚ) : ℚ := q / 100 * (((sortData data).length : ℚ) - 1)

/-- Integer part of the np.percentile virtual index. -/
def pidx (data : List ℝ) (q : ℚ) : ℕ := ⌊ppos data q⌋₊

/-- Fractional part of the np.percentile virtual index. -/
def pfrac (data : List ℝ) (q : ℚ) : ℚ := ppos data q - pidx data q

/-- np.percentile(data, q) with the default linear interpolation: with
virtual index pos = q/100 * (n-1), i = floor pos and g = pos - i, the result
is (1-g) * sorted[i] + g * sorted[i+1]; the second term carries weight g = 0
whenever pos is exactly the last index, so the out-of-range read never
contributes. -/
def npPercentile (data : List ℝ) (q : ℚ) : ℝ :=
  (1 - (pfrac data q : ℝ)) * (sortData data).getD (pidx data q) 0 +
    (pfrac data q : ℝ) * (sortData data).getD (pidx data q + 1) 0

/-- np.median: middle element of the sorted data for odd length, average of
the two middle elements for even length. -/
def npMedian (data : List ℝ) : ℝ :=
  if (sortData data).length % 2 = 1 then
    (sortData data).getD ((sortData data).length / 2) 0
  else
    ((sortData data).getD ((sortData data).length / 2 - 1) 0 +
      (sortData data).getD ((sortData data).length / 2) 0) / 2

/-- np.min: reduction of the data by the binary minimum. -/
def npMin (data : List ℝ) : ℝ :=
  match data with
  | [] => 0
  | x :: xs => xs.foldl min x

/-- np.max: reduction of the data by the binary maximum. -/
def npMax (data : List ℝ) : ℝ :=
  match data with
  | [] => 0
  | x :: xs => xs.foldl max x

/-- np.mean: sum divided by length. -/
def npMean (data : List ℝ) : ℝ := data.sum / data.length

/-- np.std over the data (population convention, numpy default ddof=0). -/
def npStd (data : List ℝ) : ℝ :=
  Real.sqrt ((data.map (fun x => (x - npMean data) ^ 2)).sum / data.length)

/-- Row of descriptive statistics written to terminal_price_stats.csv,
source lines 156-166. -/
structure TerminalStats where
  mean : ℝ
  median : ℝ
  std : ℝ
  min : ℝ
  max : ℝ
  percentile_25 : ℝ
  percentile_75 : ℝ
  percentile_95 : ℝ

/-- Descriptive statistics of the terminal price distribution as assembled in
main, source lines 156-166. -/
def terminalStats (data : List ℝ) : TerminalStats where
  mean := npMean data
  median := npMedian data
  std := npStd data
  min := npMin data
  max := npMax data
  percentile_25 := npPercentile data 25
  percentile_75 := npPercentile data 75
  percentile_95 := npPercentile data 95

/- ### Analytical Black-Scholes comparison in main, source lines 129-136. -/

/-- Standard normal cumulative distribution function (scipy stats.norm.cdf):
the integral of the standard normal density up to x. -/
def stdNormalCDF (x : ℝ) : ℝ :=
  (Real.sqrt (2 * Real.pi))⁻¹ * ∫ t in Set.Iic x, Real.exp (-t ^ 2 / 2)

/-- d1 as computed in main, source line 130, at the fixed parameters
S0=100, K=105, T=1, r=0.05, sigma=0.2 of line 129. -/
def d1 : ℝ := (Real.log (100 / 105) + (0.05 + 0.5 * 0.2 ^ 2) * 1) / (0.2 * Real.sqrt 1)

/-- d2 as computed in main, source line 131. -/
def d2 : ℝ := d1 - 0.2 * Real.sqrt 1

/-- Analytical Black-Scholes price, source line 132. -/
def analyticalPrice : ℝ :=
  100 * stdNormalCDF d1 - 105 * Real.exp (-0.05 * 1) * stdNormalCDF d2

/-- Absolute pricing error, source line 135. -/
def pricingError (mcPrice : ℝ) : ℝ := |mcPrice - analyticalPrice|

/-- Relative error percentage, source line 136. -/
def errorPercentage (mcPrice : ℝ) : ℝ := pricingError mcPrice / analyticalPrice * 100

/-- Modelled from the spec: the Black-Scholes closed form exactly as displayed
in spec section 4.3, as a function of the five market parameters, for
comparison with the aggregator's computation. -/
def blackScholesSpec (S0 K T r sigma : ℝ) : ℝ :=
  let d1s := (Real.log (S0 / K) + (r + 0.5 * sigma ^ 2) * T) / (sigma * Real.sqrt T)
  let d2s := d1s - sigma * Real.sqrt T
  S0 * stdNormalCDF d1s - K * Real.exp (-r * T) * stdNormalCDF d2s

end

end Analysis

namespace Analysis

noncomputable section

/- ### Claim theorems (first group) -/

/-- C1: for valid simulation parameters the simulator computes
dt = maturity_years / num_time_steps, per-step increments
drift + volatility * sqrt(dt) * Z with drift = (r - 0.5 sigma^2) dt constant
across paths and steps, cumulative-sums along the time axis, exponentiates and
scales by the initial price, and the terminal price of every path equals
initial_price * exp(sum over all time steps of (drift + sigma sqrt(dt) Z[s,j])). -/
theorem monteCarlo_terminal_price_closed_form
    (p : SimParams) (n_steps n_sims : ℕ) (Z : ℕ → ℕ → ℝ)
    (hsteps : 0 < n_steps) (_hsims : 0 < n_sims)
    (_hT : 0 < p.T) (_hsigma : 0 < p.sigma) (_hS0 : 0 < p.S0) :
    dt p n_steps = p.T / n_steps ∧
    drift p n_steps = (p.r - 0.5 * p.sigma ^ 2) * dt p n_steps ∧
    ∀ j, ST p n_steps Z j =
      p.S0 * Real.exp (∑ s ∈ Finset.range n_steps,
        (drift p n_steps + p.sigma * Real.sqrt (dt p n_steps) * Z s j)) := by
  refine ⟨rfl, rfl, fun j => ?_⟩
  unfold ST pricePaths diffusion
  have : n_steps - 1 + 1 = n_steps := Nat.succ_pred_eq_of_pos hsteps
  rw [this]

/-- Witness for C1 at concrete inputs. -/
theorem monteCarlo_terminal_price_closed_form_witness :
    dt defaultParams 2 = defaultParams.T / 2 ∧
    drift defaultParams 2 = (defaultParams.r - 0.5 * defaultParams.sigma ^ 2) * dt defaultParams 2 ∧
    ∀ j, ST defaultParams 2 (fun _ _ => 1) j =
      defaultParams.S0 * Real.exp (∑ s ∈ Finset.range 2,
        (drift defaultParams 2 +
          defaultParams.sigma * Real.sqrt (dt defaultParams 2) * 1)) := by
  have h := monteCarlo_terminal_price_closed_form defaultParams 2 3 (fun _ _ => 1)
    (by norm_num) (by norm_num)
    (by unfold defaultParams; norm_num)
    (by unfold defaultParams; norm_num)
    (by unfold defaultParams; norm_num)
  exact h

/-- C3: the reported standard error equals std(payoffs) / sqrt(num_paths) and
the reported 95 percent confidence half-width equals exactly the fixed constant
1.96 times that standard error. -/
theorem stdError_and_confidence_interval
    (p : SimParams) (n_steps n_sims : ℕ) (Z : ℕ → ℕ → ℝ) :
    (monteCarloOptionPricing p n_steps n_sims Z).std_error =
      npStdFn n_sims (payoffs p n_steps Z) / Real.sqrt n_sims ∧
    (monteCarloOptionPricing p n_steps n_sims Z).confidence_interval_95 =
      1.96 * (monteCarloOptionPricing p n_steps n_sims Z).std_error := by
  exact ⟨rfl, rfl⟩

/-- C4: every payoff equals max(terminal_price - strike, 0), hence is
nonnegative; the option price estimate equals
exp(-risk_free_rate * maturity_years) * mean(payoffs) and is nonnegative. -/
theorem payoffs_nonneg_and_option_price_nonneg
    (p : SimParams) (n_steps n_sims : ℕ) (Z : ℕ → ℕ → ℝ) :
    (∀ j, payoffs p n_steps Z j = max (ST p n_steps Z j - p.K) 0 ∧
      0 ≤ payoffs p n_steps Z j) ∧
    (monteCarloOptionPricing p n_steps n_sims Z).option_price =
      Real.exp (-p.r * p.T) * npMeanFn n_sims (payoffs p n_steps Z) ∧
    0 ≤ (monteCarloOptionPricing p n_steps n_sims Z).option_price := by
  refine ⟨fun j => ⟨rfl, le_max_right _ _⟩, rfl, ?_⟩
  have hmean : 0 ≤ npMeanFn n_sims (payoffs p n_steps Z) := by
    unfold npMeanFn
    apply div_nonneg
    · exact Finset.sum_nonneg fun j _ => le_max_right _ _
    · exact Nat.cast_nonneg _
  exact mul_nonneg (Real.exp_pos _).le hmean

/-- C5: the returned terminal price vector has exactly num_paths entries and,
for positive initial price, every entry is strictly positive. -/
theorem terminalPrices_length_and_pos
    (p : SimParams) (n_steps n_sims : ℕ) (Z : ℕ → ℕ → ℝ)
    (_hsteps : 0 < n_steps) (_hsims : 0 < n_sims) (hS0 : 0 < p.S0) :
    (monteCarloOptionPricing p n_steps n_sims Z).terminal_prices.length = n_sims ∧
    ∀ x ∈ (monteCarloOptionPricing p n_steps n_sims Z).terminal_prices, 0 < x := by
  constructor
  · simp [monteCarloOptionPricing, terminalPrices]
  · intro x hx
    simp only [monteCarloOptionPricing, terminalPrices, List.mem_ofFn] at hx
    obtain ⟨j, rfl⟩ := hx
    exact mul_pos hS0 (Real.exp_pos _)

/-- Witness for C5 at concrete inputs. -/
theorem terminalPrices_length_and_pos_witness :
    (monteCarloOptionPricing defaultParams 2 3 (fun _ _ => 1)).terminal_prices.length = 3 ∧
    ∀ x ∈ (monteCarloOptionPricing defaultParams 2 3 (fun _ _ => 1)).terminal_prices, 0 < x :=
  terminalPrices_length_and_pos defaultParams 2 3 (fun _ _ => 1)
    (by norm_num) (by norm_num) (by unfold defaultParams; norm_num)

/-- C6 counterexample: invoked with num_paths = 0 (at the source's other
defaults n_steps = 252 and a zero draw table), the simulator does not fail with
InvalidParameter: the source performs no parameter validation, so the run
returns a result record. -/
theorem monteCarloRun_no_invalid_parameter_check :
    monteCarloRun defaultParams 252 0 (fun _ _ => 0) ≠
      Except.error SimError.invalidParameter := by
  unfold monteCarloRun
  simp

/-- C6 amended: the simulator never fails with InvalidParameter. Invoked with
num_paths = 0 but positive num_time_steps it proceeds with the computation and
returns a result record; invoked with num_time_steps = 0 it does fail, but
with the unhandled ZeroDivisionError from dt = T / n_steps at line 41, not
with InvalidParameter. -/
theorem monteCarloRun_no_validation
    (p : SimParams) (n_steps n_sims : ℕ) (Z : ℕ → ℕ → ℝ) :
    monteCarloRun p n_steps n_sims Z ≠ Except.error SimError.invalidParameter ∧
    (0 < n_steps →
      monteCarloRun p n_steps n_sims Z =
        Except.ok (monteCarloOptionPricing p n_steps n_sims Z)) ∧
    (n_steps = 0 →
      monteCarloRun p n_steps n_sims Z = Except.error SimError.zeroDivision) := by
  unfold monteCarloRun
  rcases Nat.eq_zero_or_pos n_steps with h | h
  · subst h
    refine ⟨fun hcon => ?_, fun h0 => absurd h0 (by omega), fun _ => by simp⟩
    rw [if_pos rfl] at hcon
    exact SimError.noConfusion (Except.error.inj hcon)
  · have hne : n_steps ≠ 0 := Nat.pos_iff_ne_zero.mp h
    rw [if_neg hne]
    exact ⟨fun hcon => Except.noConfusion hcon, fun _ => rfl,
      fun h0 => absurd h0 hne⟩

/-- Witness for the C6 amended statement at a concrete input. -/
theorem monteCarloRun_no_validation_witness :
    monteCarloRun defaultParams 3 0 (fun _ _ => 0) ≠
      Except.error SimError.invalidParameter ∧
    ((0 : ℕ) < 3 →
      monteCarloRun defaultParams 3 0 (fun _ _ => 0) =
        Except.ok (monteCarloOptionPricing defaultParams 3 0 (fun _ _ => 0))) ∧
    ((3 : ℕ) = 0 →
      monteCarloRun defaultParams 3 0 (fun _ _ => 0) =
        Except.error SimError.zeroDivision) :=
  monteCarloRun_no_validation defaultParams 3 0 (fun _ _ => 0)

/-- C9: the standard error reported by the simulator uses the population
standard deviation of the payoffs (sum of squared deviations divided by
num_paths, numpy ddof=0), i.e. sqrt(mean((payoff - mean payoffs)^2)) divided
by sqrt(num_paths). -/
theorem stdError_population_convention
    (p : SimParams) (n_steps n_sims : ℕ) (Z : ℕ → ℕ → ℝ) :
    (monteCarloOptionPricing p n_steps n_sims Z).std_error =
      Real.sqrt ((∑ j ∈ Finset.range n_sims,
          (payoffs p n_steps Z j -
            (∑ k ∈ Finset.range n_sims, payoffs p n_steps Z k) / n_sims) ^ 2) / n_sims) /
        Real.sqrt n_sims := rfl

/-- Helper: the eigenvalue multiset of the benchmark submatrix is nonempty,
because the characteristic polynomial of a 1000 x 1000 complex matrix has
degree 1000 and the complex numbers are algebraically closed. -/
lemma eigenvalues_nonempty (M : Matrix (Fin 1000) (Fin 1000) ℝ) :
    ∃ z, z ∈ eigenvalues M := by
  have hdeg : ((M.map Complex.ofReal).charpoly).degree = (1000 : ℕ) := by
    rw [Matrix.charpoly_degree_eq_dim, Fintype.card_fin]
  obtain ⟨z, hz⟩ := IsAlgClosed.exists_root ((M.map Complex.ofReal).charpoly)
    (by rw [hdeg]; exact (by norm_num : ((1000 : ℕ) : WithBot ℕ) ≠ 0))
  refine ⟨z, ?_⟩
  rw [eigenvalues, Polynomial.mem_roots']
  exact ⟨(Matrix.charpoly_monic _).ne_zero, hz⟩

/-- C8: the benchmark multiplies two 5000 x 5000 real matrices, takes the full
eigenvalue set of the 1000 x 1000 leading submatrix of the product, and the
reported maximum eigenvalue modulus is nonnegative for every pair of input
matrices. -/
theorem maxEigenvalue_nonneg (A B : Matrix (Fin 5000) (Fin 5000) ℝ) :
    0 ≤ maxEigenvalue A B := by
  obtain ⟨z, hz⟩ := eigenvalues_nonempty (leadingSubmatrix (matrixProduct A B))
  have hmem : Complex.abs z ∈
      Complex.abs '' {w | w ∈ eigenvalues (leadingSubmatrix (matrixProduct A B))} :=
    Set.mem_image_of_mem _ hz
  have hbdd : BddAbove
      (Complex.abs '' {w | w ∈ eigenvalues (leadingSubmatrix (matrixProduct A B))}) := by
    apply Set.Finite.bddAbove
    exact (Multiset.finite_toSet _).image _
  calc (0 : ℝ) ≤ Complex.abs z := Complex.abs.nonneg z
    _ ≤ maxEigenvalue A B := le_csSup hbdd hmem

/- ### Helper lemmas for the terminal distribution order statistics -/

lemma sortData_sorted (data : List ℝ) : (sortData data).Sorted (· ≤ ·) :=
  List.sorted_insertionSort _ _

lemma sortData_perm (data : List ℝ) : List.Perm (sortData data) data :=
  List.perm_insertionSort _ _

lemma sortData_length (data : List ℝ) : (sortData data).length = data.length :=
  (sortData_perm data).length_eq

lemma sortData_mem {data : List ℝ} {x : ℝ} (hx : x ∈ sortData data) : x ∈ data :=
  (sortData_perm data).mem_iff.mp hx

lemma foldl_min_le {l : List ℝ} {x : ℝ} : ∀ y ∈ x :: l, l.foldl min x ≤ y := by
  induction l generalizing x with
  | nil =>
    intro y hy
    simp only [List.mem_singleton] at hy
    simp [hy]
  | cons a t ih =>
    intro y hy
    simp only [List.foldl_cons]
    have hhead : t.foldl min (min x a) ≤ min x a := ih _ (List.mem_cons_self _ _)
    rcases List.mem_cons.mp hy with rfl | hy2
    · exact hhead.trans (min_le_left _ _)
    · rcases List.mem_cons.mp hy2 with rfl | hy3
      · exact hhead.trans (min_le_right _ _)
      · exact ih y (List.mem_cons_of_mem _ hy3)

lemma le_foldl_max {l : List ℝ} {x : ℝ} : ∀ y ∈ x :: l, y ≤ l.foldl max x := by
  induction l generalizing x with
  | nil =>
    intro y hy
    simp only [List.mem_singleton] at hy
    simp [hy]
  | cons a t ih =>
    intro y hy
    simp only [List.foldl_cons]
    have hhead : max x a ≤ t.foldl max (max x a) := ih _ (List.mem_cons_self _ _)
    rcases List.mem_cons.mp hy with rfl | hy2
    · exact (le_max_left _ _).trans hhead
    · rcases List.mem_cons.mp hy2 with rfl | hy3
      · exact (le_max_right _ _).trans hhead
      · exact ih y (List.mem_cons_of_mem _ hy3)

lemma npMin_le {data : List ℝ} {y : ℝ} (hy : y ∈ data) : npMin data ≤ y := by
  cases data with
  | nil => exact absurd hy (List.not_mem_nil y)
  | cons x xs => exact foldl_min_le y hy

lemma le_npMax {data : List ℝ} {y : ℝ} (hy : y ∈ data) : y ≤ npMax data := by
  cases data with
  | nil => exact absurd hy (List.not_mem_nil y)
  | cons x xs => exact le_foldl_max y hy

lemma getD_mem {l : List ℝ} {i : ℕ} (h : i < l.length) : l.getD i 0 ∈ l := by
  rw [List.getD_eq_getElem l 0 h]
  exact List.getElem_mem h

lemma sorted_getD_mono {l : List ℝ} (hs : l.Sorted (· ≤ ·)) {i j : ℕ}
    (hij : i ≤ j) (hj : j < l.length) : l.getD i 0 ≤ l.getD j 0 := by
  have hi : i < l.length := lt_of_le_of_lt hij hj
  rcases eq_or_lt_of_le hij with rfl | hlt
  · exact le_refl _
  · rw [List.getD_eq_getElem l 0 hi, List.getD_eq_getElem l 0 hj]
    have h := hs.rel_get_of_lt (a := ⟨i, hi⟩) (b := ⟨j, hj⟩) (Fin.mk_lt_mk.mpr hlt)
    simpa [List.get_eq_getElem] using h

lemma length_sort_pos {data : List ℝ} (hne : data ≠ []) : 0 < (sortData data).length := by
  rw [sortData_length]
  exact List.length_pos.mpr hne

lemma ppos_nonneg {data : List ℝ} {q : ℚ} (hne : data ≠ []) (hq : 0 ≤ q) :
    0 ≤ ppos data q := by
  unfold ppos
  have h1 : (1 : ℚ) ≤ ((sortData data).length : ℚ) := by
    exact_mod_cast length_sort_pos hne
  have h2 : (0 : ℚ) ≤ q / 100 := by positivity
  nlinarith

lemma ppos_le {data : List ℝ} {q : ℚ} (hne : data ≠ []) (hq0 : 0 ≤ q) (hq : q ≤ 100) :
    ppos data q ≤ ((sortData data).length : ℚ) - 1 := by
  unfold ppos
  have h1 : q / 100 ≤ 1 := by linarith [(div_le_one (by norm_num : (0:ℚ) < 100)).mpr hq]
  have h2 : (0 : ℚ) ≤ ((sortData data).length : ℚ) - 1 := by
    have : (1 : ℚ) ≤ ((sortData data).length : ℚ) := by
      exact_mod_cast length_sort_pos hne
    linarith
  calc q / 100 * (((sortData data).length : ℚ) - 1)
      ≤ 1 * (((sortData data).length : ℚ) - 1) := mul_le_mul_of_nonneg_right h1 h2
    _ = ((sortData data).length : ℚ) - 1 := one_mul _

lemma pidx_cast_le {data : List ℝ} {q : ℚ} (hne : data ≠ []) (hq0 : 0 ≤ q) (hq : q ≤ 100) :
    (pidx data q : ℚ) ≤ ((sortData data).length : ℚ) - 1 := by
  unfold pidx
  calc ((⌊ppos data q⌋₊ : ℕ) : ℚ) ≤ ppos data q := Nat.floor_le (ppos_nonneg hne hq0)
    _ ≤ ((sortData data).length : ℚ) - 1 := ppos_le hne hq0 hq

lemma pidx_lt {data : List ℝ} {q : ℚ} (hne : data ≠ []) (hq0 : 0 ≤ q) (hq : q ≤ 100) :
    pidx data q < (sortData data).length := by
  have h := pidx_cast_le hne hq0 hq
  have h2 : (pidx data q : ℚ) < ((sortData data).length : ℚ) := by linarith
  exact_mod_cast h2

lemma pfrac_nonneg {data : List ℝ} {q : ℚ} (hne : data ≠ []) (hq0 : 0 ≤ q) :
    0 ≤ pfrac data q := by
  unfold pfrac pidx
  have h := Nat.floor_le (ppos_nonneg hne hq0)
  linarith

lemma pfrac_lt_one {data : List ℝ} {q : ℚ} : pfrac data q < 1 := by
  unfold pfrac pidx
  have h := Nat.lt_floor_add_one (ppos data q)
  linarith

lemma pfrac_eq_zero_at_last {data : List ℝ} {q : ℚ} (hne : data ≠ [])
    (hq0 : 0 ≤ q) (hq : q ≤ 100)
    (hlast : pidx data q + 1 = (sortData data).length) : pfrac data q = 0 := by
  have h1 : (pidx data q : ℚ) = ((sortData data).length : ℚ) - 1 := by
    have := congrArg (fun m : ℕ => (m : ℚ)) hlast
    push_cast at this
    linarith
  have h2 := ppos_le hne hq0 hq
  have h3 := pfrac_nonneg hne hq0
  unfold pfrac at h3 ⊢
  linarith

lemma npPercentile_mono {data : List ℝ} (hne : data ≠ []) {q1 q2 : ℚ}
    (hq0 : 0 ≤ q1) (h12 : q1 ≤ q2) (hq2 : q2 ≤ 100) :
    npPercentile data q1 ≤ npPercentile data q2 := by
  have hq0b : (0 : ℚ) ≤ q2 := hq0.trans h12
  have hq1b : q1 ≤ 100 := h12.trans hq2
  have hsort := sortData_sorted data
  have hpos12 : ppos data q1 ≤ ppos data q2 := by
    unfold ppos
    have h2 : (0 : ℚ) ≤ ((sortData data).length : ℚ) - 1 := by
      have : (1 : ℚ) ≤ ((sortData data).length : ℚ) := by
        exact_mod_cast length_sort_pos hne
      linarith
    have h1 : q1 / 100 ≤ q2 / 100 := by linarith
    exact mul_le_mul_of_nonneg_right h1 h2
  have hi12 : pidx data q1 ≤ pidx data q2 := Nat.floor_le_floor hpos12
  rcases eq_or_lt_of_le hi12 with heq | hlt
  · rcases lt_or_ge (pidx data q1 + 1) (sortData data).length with hplus | hplus
    · have hab : (sortData data).getD (pidx data q1) 0 ≤
          (sortData data).getD (pidx data q1 + 1) 0 :=
        sorted_getD_mono hsort (Nat.le_succ _) hplus
      have hg12 : pfrac data q1 ≤ pfrac data q2 := by
        unfold pfrac
        rw [← heq]
        linarith
      have hg12r : ((pfrac data q1 : ℝ)) ≤ ((pfrac data q2 : ℝ)) := by exact_mod_cast hg12
      unfold npPercentile
      rw [← heq]
      nlinarith [mul_nonneg (sub_nonneg.mpr hg12r) (sub_nonneg.mpr hab)]
    · have hi1 := pidx_lt hne hq0 hq1b
      have hlast : pidx data q1 + 1 = (sortData data).length := by omega
      have hg1 : pfrac data q1 = 0 := pfrac_eq_zero_at_last hne hq0 hq1b hlast
      have hg2 : pfrac data q2 = 0 :=
        pfrac_eq_zero_at_last hne hq0b hq2 (heq ▸ hlast)
      unfold npPercentile
      rw [← heq, hg1, hg2]
  · have hi2lt := pidx_lt hne hq0b hq2
    have h1p : pidx data q1 + 1 < (sortData data).length :=
      lt_of_le_of_lt (Nat.succ_le_of_lt hlt) hi2lt
  -- the omitted middle chain: interpolant at q1 is at most the right cell
  -- boundary, which is at most the left cell boundary at q2, which is at most
  -- the interpolant at q2
    have hb1 : (sortData data).getD (pidx data q1) 0 ≤
        (sortData data).getD (pidx data q1 + 1) 0 :=
      sorted_getD_mono hsort (Nat.le_succ _) h1p
    have hmid : (sortData data).getD (pidx data q1 + 1) 0 ≤
        (sortData data).getD (pidx data q2) 0 :=
      sorted_getD_mono hsort (Nat.succ_le_of_lt hlt) hi2lt
    have hg1a : (0 : ℝ) ≤ (pfrac data q1 : ℝ) := by
      exact_mod_cast pfrac_nonneg hne hq0
    have hg1b : ((pfrac data q1 : ℝ)) ≤ 1 := by
      exact_mod_cast (@pfrac_lt_one data q1).le
    have e1 : npPercentile data q1 ≤ (sortData data).getD (pidx data q1 + 1) 0 := by
      unfold npPercentile
      nlinarith [mul_nonneg (sub_nonneg.mpr hg1b) (sub_nonneg.mpr hb1)]
    have e2 : (sortData data).getD (pidx data q2) 0 ≤ npPercentile data q2 := by
      have hg2a : (0 : ℝ) ≤ (pfrac data q2 : ℝ) := by
        exact_mod_cast pfrac_nonneg hne hq0b
      rcases lt_or_ge (pidx data q2 + 1) (sortData data).length with hp2 | hp2
      · have hcd : (sortData data).getD (pidx data q2) 0 ≤
            (sortData data).getD (pidx data q2 + 1) 0 :=
          sorted_getD_mono hsort (Nat.le_succ _) hp2
        unfold npPercentile
        nlinarith [mul_nonneg hg2a (sub_nonneg.mpr hcd)]
      · have hlast2 : pidx data q2 + 1 = (sortData data).length := by omega
        have hg2 : pfrac data q2 = 0 := pfrac_eq_zero_at_last hne hq0b hq2 hlast2
        unfold npPercentile
        rw [hg2]
        push_cast
        ring_nf
        exact le_refl _
    exact e1.trans (hmid.trans e2)

lemma npPercentile_mem_Icc {data : List ℝ} (hne : data ≠ []) {q : ℚ}
    (hq0 : 0 ≤ q) (hq : q ≤ 100) :
    npMin data ≤ npPercentile data q ∧ npPercentile data q ≤ npMax data := by
  have hi := pidx_lt hne hq0 hq
  have ha : (sortData data).getD (pidx data q) 0 ∈ data := sortData_mem (getD_mem hi)
  have ham : npMin data ≤ (sortData data).getD (pidx data q) 0 := npMin_le ha
  have haM : (sortData data).getD (pidx data q) 0 ≤ npMax data := le_npMax ha
  have hg0 : (0 : ℝ) ≤ (pfrac data q : ℝ) := by exact_mod_cast pfrac_nonneg hne hq0
  have hg1 : ((pfrac data q : ℝ)) ≤ 1 := by
    exact_mod_cast (@pfrac_lt_one data q).le
  rcases lt_or_ge (pidx data q + 1) (sortData data).length with hp | hp
  · have hb : (sortData data).getD (pidx data q + 1) 0 ∈ data :=
      sortData_mem (getD_mem hp)
    have hbm : npMin data ≤ (sortData data).getD (pidx data q + 1) 0 := npMin_le hb
    have hbM : (sortData data).getD (pidx data q + 1) 0 ≤ npMax data := le_npMax hb
    unfold npPercentile
    constructor <;> nlinarith
  · have hlast : pidx data q + 1 = (sortData data).length := by omega
    have hg : pfrac data q = 0 := pfrac_eq_zero_at_last hne hq0 hq hlast
    unfold npPercentile
    rw [hg]
    push_cast
    constructor <;> nlinarith

lemma npMean_mem_Icc {data : List ℝ} (hne : data ≠ []) :
    npMin data ≤ npMean data ∧ npMean data ≤ npMax data := by
  have hlen : 0 < data.length := List.length_pos.mpr hne
  have hlo : data.length • npMin data ≤ data.sum :=
    List.card_nsmul_le_sum data (npMin data) (fun _ hx => npMin_le hx)
  have hhi : data.sum ≤ data.length • npMax data :=
    List.sum_le_card_nsmul data (npMax data) (fun _ hx => le_npMax hx)
  rw [nsmul_eq_mul] at hlo hhi
  have hlenr : (0 : ℝ) < (data.length : ℝ) := by exact_mod_cast hlen
  unfold npMean
  constructor
  · rw [le_div_iff hlenr]
    nlinarith
  · rw [div_le_iff hlenr]
    nlinarith

lemma npMedian_eq_percentile50 {data : List ℝ} (hne : data ≠ []) :
    npMedian data = npPercentile data 50 := by
  have hn : 0 < (sortData data).length := length_sort_pos hne
  rcases Nat.even_or_odd (sortData data).length with he | ho
  · obtain ⟨k, hk⟩ := he
    have hk1 : 1 ≤ k := by omega
    have hpos : ppos data 50 = (k : ℚ) - 1 / 2 := by
      unfold ppos
      rw [hk]
      push_cast
      ring
    have hidx : pidx data 50 = k - 1 := by
      unfold pidx
      rw [hpos]
      rw [Nat.floor_eq_iff (by push_cast; linarith [(by exact_mod_cast hk1 : (1:ℚ) ≤ (k:ℚ))])]
      constructor
      · rw [Nat.cast_sub hk1]
        push_cast
        linarith
      · rw [Nat.cast_sub hk1]
        push_cast
        linarith
    have hfrac : pfrac data 50 = 1 / 2 := by
      unfold pfrac
      rw [hpos, hidx, Nat.cast_sub hk1]
      push_cast
      ring
    have hmod : ¬((sortData data).length % 2 = 1) := by omega
    have hdiv : (sortData data).length / 2 = k := by omega
    have hsucc : k - 1 + 1 = k := by omega
    unfold npMedian npPercentile
    rw [if_neg hmod, hidx, hfrac, hdiv, hsucc]
    push_cast
    ring
  · obtain ⟨k, hk⟩ := ho
    have hpos : ppos data 50 = (k : ℚ) := by
      unfold ppos
      rw [hk]
      push_cast
      ring
    have hidx : pidx data 50 = k := by
      unfold pidx
      rw [hpos]
      exact Nat.floor_natCast k
    have hfrac : pfrac data 50 = 0 := by
      unfold pfrac
      rw [hpos, hidx]
      push_cast
      ring
    have hmod : (sortData data).length % 2 = 1 := by omega
    have hdiv : (sortData data).length / 2 = k := by omega
    unfold npMedian npPercentile
    rw [if_pos hmod, hidx, hfrac, hdiv]
    push_cast
    ring

/-- C10: for every nonempty terminal price vector, the descriptive statistics
written to the terminal-distribution row are mutually consistent order
statistics: min <= percentile_25 <= median <= percentile_75 <= percentile_95
<= max, and both the mean and the median lie within the interval from min to
max. -/
theorem terminalStats_order_consistent (data : List ℝ) (hne : data ≠ []) :
    (terminalStats data).min ≤ (terminalStats data).percentile_25 ∧
    (terminalStats data).percentile_25 ≤ (terminalStats data).median ∧
    (terminalStats data).median ≤ (terminalStats data).percentile_75 ∧
    (terminalStats data).percentile_75 ≤ (terminalStats data).percentile_95 ∧
    (terminalStats data).percentile_95 ≤ (terminalStats data).max ∧
    (terminalStats data).min ≤ (terminalStats data).mean ∧
    (terminalStats data).mean ≤ (terminalStats data).max ∧
    (terminalStats data).min ≤ (terminalStats data).median ∧
    (terminalStats data).median ≤ (terminalStats data).max := by
  have hmed := npMedian_eq_percentile50 hne
  have h0 := (npPercentile_mem_Icc hne (q := 25) (by norm_num) (by norm_num)).1
  have h1 : npPercentile data 25 ≤ npPercentile data 50 :=
    npPercentile_mono hne (by norm_num) (by norm_num) (by norm_num)
  have h2 : npPercentile data 50 ≤ npPercentile data 75 :=
    npPercentile_mono hne (by norm_num) (by norm_num) (by norm_num)
  have h3 : npPercentile data 75 ≤ npPercentile data 95 :=
    npPercentile_mono hne (by norm_num) (by norm_num) (by norm_num)
  have h4 := (npPercentile_mem_Icc hne (q := 95) (by norm_num) (by norm_num)).2
  have h5 := npMean_mem_Icc hne
  have h6 := npPercentile_mem_Icc hne (q := 50) (by norm_num) (by norm_num)
  simp only [terminalStats]
  rw [hmed]
  exact ⟨h0, h1, h2, h3, h4, h5.1, h5.2, h6.1, h6.2⟩

/-- Witness for C10 on a concrete two-element data set. -/
theorem terminalStats_order_consistent_witness :
    (terminalStats [2, 1]).min ≤ (terminalStats [2, 1]).percentile_25 ∧
    (terminalStats [2, 1]).percentile_25 ≤ (terminalStats [2, 1]).median ∧
    (terminalStats [2, 1]).median ≤ (terminalStats [2, 1]).percentile_75 ∧
    (terminalStats [2, 1]).percentile_75 ≤ (terminalStats [2, 1]).percentile_95 ∧
    (terminalStats [2, 1]).percentile_95 ≤ (terminalStats [2, 1]).max ∧
    (terminalStats [2, 1]).min ≤ (terminalStats [2, 1]).mean ∧
    (terminalStats [2, 1]).mean ≤ (terminalStats [2, 1]).max ∧
    (terminalStats [2, 1]).min ≤ (terminalStats [2, 1]).median ∧
    (terminalStats [2, 1]).median ≤ (terminalStats [2, 1]).max :=
  terminalStats_order_consistent [2, 1] (by simp)

/-- C7: the aggregator's absolute pricing error equals
|simulated_price - analytical_price| and its relative error percentage equals
that absolute error divided by the analytical price, times 100. -/
theorem pricingError_and_percentage (simPrice : ℝ) :
    pricingError simPrice = |simPrice - analyticalPrice| ∧
    errorPercentage simPrice = |simPrice - analyticalPrice| / analyticalPrice * 100 :=
  ⟨rfl, rfl⟩

/- ### Numerical facts about the standard normal CDF, used for C2 -/

lemma gaussian_integrable :
    MeasureTheory.Integrable (fun t : ℝ => Real.exp (-t ^ 2 / 2)) := by
  have h := integrable_exp_neg_mul_sq (show (0 : ℝ) < 1 / 2 by norm_num)
  have he : (fun x : ℝ => Real.exp (-(1 / 2 : ℝ) * x ^ 2)) =
      fun t : ℝ => Real.exp (-t ^ 2 / 2) := by
    funext t
    ring_nf
  rwa [he] at h

lemma gaussian_total :
    ∫ t : ℝ, Real.exp (-t ^ 2 / 2) = Real.sqrt (2 * Real.pi) := by
  have h := integral_gaussian (1 / 2 : ℝ)
  have he : (fun x : ℝ => Real.exp (-(1 / 2 : ℝ) * x ^ 2)) =
      fun t : ℝ => Real.exp (-t ^ 2 / 2) := by
    funext t
    ring_nf
  rw [he] at h
  rw [h]
  congr 1
  ring

lemma gaussian_Ioi_zero :
    ∫ t in Set.Ioi (0 : ℝ), Real.exp (-t ^ 2 / 2) = Real.sqrt (2 * Real.pi) / 2 := by
  have h := integral_gaussian_Ioi (1 / 2 : ℝ)
  have he : (fun x : ℝ => Real.exp (-(1 / 2 : ℝ) * x ^ 2)) =
      fun t : ℝ => Real.exp (-t ^ 2 / 2) := by
    funext t
    ring_nf
  rw [he] at h
  rw [h]
  congr 2
  ring

lemma gaussian_Iic_zero :
    ∫ t in Set.Iic (0 : ℝ), Real.exp (-t ^ 2 / 2) = Real.sqrt (2 * Real.pi) / 2 := by
  have hsplit := MeasureTheory.integral_add_compl (measurableSet_Iic (a := (0 : ℝ)))
    gaussian_integrable
  rw [Set.compl_Iic, gaussian_Ioi_zero, gaussian_total] at hsplit
  linarith

lemma gaussian_Iic_eq (x : ℝ) :
    ∫ t in Set.Iic x, Real.exp (-t ^ 2 / 2) =
      Real.sqrt (2 * Real.pi) / 2 + ∫ t in (0 : ℝ)..x, Real.exp (-t ^ 2 / 2) := by
  have h := intervalIntegral.integral_Iic_sub_Iic
    (gaussian_integrable.integrableOn (s := Set.Iic (0 : ℝ)))
    (gaussian_integrable.integrableOn (s := Set.Iic x))
  rw [gaussian_Iic_zero] at h
  linarith

lemma sqrt_two_pi_pos : 0 < Real.sqrt (2 * Real.pi) :=
  Real.sqrt_pos.mpr (by positivity)

/-- The CDF as one half plus the scaled integral from the origin. -/
lemma stdNormalCDF_eq (x : ℝ) :
    stdNormalCDF x =
      1 / 2 + (Real.sqrt (2 * Real.pi))⁻¹ * ∫ t in (0 : ℝ)..x, Real.exp (-t ^ 2 / 2) := by
  unfold stdNormalCDF
  rw [gaussian_Iic_eq]
  have hs := sqrt_two_pi_pos.ne.symm
  rw [mul_add]
  have h1 : (Real.sqrt (2 * Real.pi))⁻¹ * (Real.sqrt (2 * Real.pi) / 2) =
      (Real.sqrt (2 * Real.pi))⁻¹ * Real.sqrt (2 * Real.pi) / 2 := by ring
  rw [h1, inv_mul_cancel₀ hs]

lemma gaussian_cont : Continuous (fun t : ℝ => Real.exp (-t ^ 2 / 2)) := by
  have h : Continuous (fun t : ℝ => -t ^ 2 / 2) := by continuity
  exact Real.continuous_exp.comp h

lemma poly_lower_integral (x : ℝ) :
    ∫ t in (0 : ℝ)..x, (1 - t ^ 2 / 2) = x - x ^ 3 / 6 := by
  rw [intervalIntegral.integral_sub intervalIntegrable_const
    (((continuous_pow 2).div_const 2).intervalIntegrable 0 x)]
  rw [intervalIntegral.integral_div, integral_pow, intervalIntegral.integral_const]
  norm_num
  ring

lemma poly_upper_integral (x : ℝ) :
    ∫ t in (0 : ℝ)..x, (1 - t ^ 2 / 2 + 3 / 16 * t ^ 4) =
      x - x ^ 3 / 6 + 3 / 80 * x ^ 5 := by
  have hi1 : IntervalIntegrable (fun t : ℝ => 1 - t ^ 2 / 2)
      MeasureTheory.volume 0 x := by
    apply Continuous.intervalIntegrable
    continuity
  have hi2 : IntervalIntegrable (fun t : ℝ => 3 / 16 * t ^ 4)
      MeasureTheory.volume 0 x := by
    apply Continuous.intervalIntegrable
    continuity
  rw [intervalIntegral.integral_add hi1 hi2, poly_lower_integral,
    intervalIntegral.integral_const_mul, integral_pow]
  norm_num
  ring

lemma one_sub_le_exp_neg_sq (t : ℝ) : 1 - t ^ 2 / 2 ≤ Real.exp (-t ^ 2 / 2) := by
  have h := Real.add_one_le_exp (-t ^ 2 / 2)
  linarith

lemma exp_neg_sq_le_poly {t : ℝ} (ht : |t| ≤ 1) :
    Real.exp (-t ^ 2 / 2) ≤ 1 - t ^ 2 / 2 + 3 / 16 * t ^ 4 := by
  have ht2 : t ^ 2 ≤ 1 := by
    rw [← sq_abs]
    nlinarith [abs_nonneg t]
  have habs : |(-t ^ 2 / 2 : ℝ)| ≤ 1 := by
    have h0 : (-t ^ 2 / 2 : ℝ) ≤ 0 := by nlinarith [sq_nonneg t]
    rw [abs_of_nonpos h0]
    nlinarith
  have h := Real.exp_bound habs (n := 2) (by norm_num)
  have hsum : ∑ m ∈ Finset.range 2, (-t ^ 2 / 2 : ℝ) ^ m / m.factorial =
      1 + -t ^ 2 / 2 := by
    simp [Finset.sum_range_succ]
  rw [hsum] at h
  have h2 := (abs_le.mp h).2
  have h3 : |(-t ^ 2 / 2 : ℝ)| ^ 2 = (t ^ 2 / 2) ^ 2 := by
    rw [sq_abs]
    ring
  rw [h3] at h2
  norm_num [Nat.factorial] at h2
  nlinarith

set_option maxHeartbeats 1000000 in
lemma I_bounds {x : ℝ} (hx0 : 0 ≤ x) (hx1 : x ≤ 1) :
    x - x ^ 3 / 6 ≤ (∫ t in (0 : ℝ)..x, Real.exp (-t ^ 2 / 2)) ∧
    (∫ t in (0 : ℝ)..x, Real.exp (-t ^ 2 / 2)) ≤ x - x ^ 3 / 6 + 3 / 80 * x ^ 5 := by
  have hint : IntervalIntegrable (fun t : ℝ => Real.exp (-t ^ 2 / 2))
      MeasureTheory.volume 0 x := gaussian_cont.intervalIntegrable 0 x
  have hp1 : IntervalIntegrable (fun t : ℝ => 1 - t ^ 2 / 2)
      MeasureTheory.volume 0 x :=
    (continuous_const.sub ((continuous_pow 2).div_const 2)).intervalIntegrable 0 x
  have hp2 : IntervalIntegrable (fun t : ℝ => 1 - t ^ 2 / 2 + 3 / 16 * t ^ 4)
      MeasureTheory.volume 0 x :=
    ((continuous_const.sub ((continuous_pow 2).div_const 2)).add
      (continuous_const.mul (continuous_pow 4))).intervalIntegrable 0 x
  constructor
  · have hmono := intervalIntegral.integral_mono_on hx0 hp1 hint
      (fun t _ => one_sub_le_exp_neg_sq t)
    rwa [poly_lower_integral] at hmono
  · have hmono := intervalIntegral.integral_mono_on hx0 hint hp2 ?_
    · rwa [poly_upper_integral] at hmono
    · intro t ht
      apply exp_neg_sq_le_poly
      rw [abs_le]
      exact ⟨by linarith [ht.1], by linarith [ht.2]⟩

lemma I_neg (x : ℝ) :
    (∫ t in (0 : ℝ)..(-x), Real.exp (-t ^ 2 / 2)) =
      -∫ t in (0 : ℝ)..x, Real.exp (-t ^ 2 / 2) := by
  have h : ∫ t in (0 : ℝ)..x, Real.exp (-(-t) ^ 2 / 2) =
      ∫ t in -x..(-(0 : ℝ)), Real.exp (-t ^ 2 / 2) :=
    intervalIntegral.integral_comp_neg (fun t : ℝ => Real.exp (-t ^ 2 / 2))
  simp only [neg_sq, neg_zero] at h
  rw [h]
  exact intervalIntegral.integral_symm (-x) 0

/- ### Rational bounds for the constants entering the analytical price -/

lemma log_ratio_bounds :
    (0.04879 : ℝ) ≤ Real.log (21 / 20) ∧ Real.log (21 / 20) ≤ 0.0487903 := by
  constructor
  · rw [Real.le_log_iff_exp_le (by norm_num : (0 : ℝ) < 21 / 20)]
    have h := Real.exp_bound' (by norm_num : (0 : ℝ) ≤ 0.04879)
      (by norm_num : (0.04879 : ℝ) ≤ 1) (n := 5) (by norm_num)
    calc Real.exp 0.04879 ≤ _ := h
      _ ≤ 21 / 20 := by norm_num [Finset.sum_range_succ, Nat.factorial]
  · rw [Real.log_le_iff_le_exp (by norm_num : (0 : ℝ) < 21 / 20)]
    have h := Real.sum_le_exp_of_nonneg (by norm_num : (0 : ℝ) ≤ 0.0487903) 5
    calc (21 : ℝ) / 20 ≤ ∑ i ∈ Finset.range 5, (0.0487903 : ℝ) ^ i / i.factorial := by
          norm_num [Finset.sum_range_succ, Nat.factorial]
      _ ≤ Real.exp 0.0487903 := h

lemma exp_neg_twentieth_bounds :
    (0.9512294 : ℝ) ≤ Real.exp (-(1 / 20)) ∧ Real.exp (-(1 / 20)) ≤ 0.9512295 := by
  have habs : |(-(1 / 20) : ℝ)| ≤ 1 := by
    rw [abs_of_nonpos (by norm_num)]
    norm_num
  have h := Real.exp_bound habs (n := 5) (by norm_num)
  have habs2 : |(-(1 / 20) : ℝ)| = 1 / 20 := by
    rw [abs_of_nonpos (by norm_num)]
    norm_num
  rw [habs2, abs_le] at h
  norm_num [Finset.sum_range_succ, Nat.factorial] at h
  constructor <;> linarith [h.1, h.2]

lemma sqrt_two_pi_bounds :
    (2.506628 : ℝ) ≤ Real.sqrt (2 * Real.pi) ∧ Real.sqrt (2 * Real.pi) ≤ 2.5066288 := by
  constructor
  · rw [Real.le_sqrt (by norm_num) (by positivity)]
    nlinarith [Real.pi_gt_d6]
  · rw [Real.sqrt_le_left (by norm_num)]
    nlinarith [Real.pi_lt_d6]

lemma d1_eq : d1 = 0.35 - 5 * Real.log (21 / 20) := by
  unfold d1
  rw [Real.sqrt_one]
  have h : Real.log (100 / 105) = -Real.log (21 / 20) := by
    rw [show (100 : ℝ) / 105 = ((21 : ℝ) / 20)⁻¹ by norm_num, Real.log_inv]
  rw [h]
  ring

lemma d1_bounds : (0.1060485 : ℝ) ≤ d1 ∧ d1 ≤ 0.10605 := by
  have hL := log_ratio_bounds
  rw [d1_eq]
  constructor
  · linarith
  · linarith

lemma d2_eq : d2 = d1 - 0.2 := by
  unfold d2
  rw [Real.sqrt_one]
  ring

set_option maxHeartbeats 1000000 in
/-- C2: the analytical price computed by the aggregator equals the
Black-Scholes closed form S0 Phi(d1) - K exp(-r T) Phi(d2), where
d1 = (ln(S0/K) + (r + 0.5 sigma^2) T)/(sigma sqrt T), d2 = d1 - sigma sqrt T
and Phi is the standard normal CDF; and at the fixed parameters S0=100, K=105,
T=1, r=0.05, sigma=0.2 its value lies within 0.001 of 8.0214. -/
theorem analyticalPrice_formula_and_value :
    analyticalPrice = blackScholesSpec 100 105 1 0.05 0.2 ∧
    |analyticalPrice - 8.0214| < 0.001 := by
  constructor
  · rfl
  · have hd1 := d1_bounds
    have hI1 := I_bounds (x := d1) (by linarith [hd1.1]) (by linarith [hd1.2])
    have hy : -d2 = 0.2 - d1 := by rw [d2_eq]; ring
    have hI2 := I_bounds (x := -d2) (by rw [hy]; linarith [hd1.2])
      (by rw [hy]; linarith [hd1.1])
    have hs := sqrt_two_pi_bounds
    have hspos := sqrt_two_pi_pos
    have hE := exp_neg_twentieth_bounds
    have hupos : (0 : ℝ) < (Real.sqrt (2 * Real.pi))⁻¹ := inv_pos.mpr hspos
    have hu1 : (Real.sqrt (2 * Real.pi))⁻¹ ≤ 0.3989424 := by
      calc (Real.sqrt (2 * Real.pi))⁻¹ ≤ (2.506628 : ℝ)⁻¹ :=
            inv_le_inv_of_le (by norm_num) hs.1
        _ ≤ 0.3989424 := by norm_num
    have hu2 : (0.3989421 : ℝ) ≤ (Real.sqrt (2 * Real.pi))⁻¹ := by
      calc (0.3989421 : ℝ) ≤ (2.5066288 : ℝ)⁻¹ := by norm_num
        _ ≤ (Real.sqrt (2 * Real.pi))⁻¹ := inv_le_inv_of_le hspos hs.2
    have hd1pos : (0 : ℝ) ≤ d1 := by linarith [hd1.1]
    have hc3 : d1 ^ 3 ≤ (0.10605 : ℝ) ^ 3 := pow_le_pow_left hd1pos hd1.2 3
    have hc3b : (0.1060485 : ℝ) ^ 3 ≤ d1 ^ 3 :=
      pow_le_pow_left (by norm_num) hd1.1 3
    have hc5 : d1 ^ 5 ≤ (0.10605 : ℝ) ^ 5 := pow_le_pow_left hd1pos hd1.2 5
    have hI1lo : (0.1058497 : ℝ) ≤ ∫ t in (0 : ℝ)..d1, Real.exp (-t ^ 2 / 2) := by
      linarith [hI1.1]
    have hI1hi : (∫ t in (0 : ℝ)..d1, Real.exp (-t ^ 2 / 2)) ≤ 0.1058518 := by
      linarith [hI1.2]
    have hyd : (0 : ℝ) ≤ -d2 := by rw [hy]; linarith [hd1.2]
    have hjhi : -d2 ≤ (0.0939515 : ℝ) := by rw [hy]; linarith [hd1.1]
    have hjlo : (0.09395 : ℝ) ≤ -d2 := by rw [hy]; linarith [hd1.2]
    have hj3 : (-d2) ^ 3 ≤ (0.0939515 : ℝ) ^ 3 := pow_le_pow_left hyd hjhi 3
    have hj3b : (0.09395 : ℝ) ^ 3 ≤ (-d2) ^ 3 :=
      pow_le_pow_left (by norm_num) hjlo 3
    have hj5 : (-d2) ^ 5 ≤ (0.0939515 : ℝ) ^ 5 := pow_le_pow_left hyd hjhi 5
    have hJlo : (0.0938117 : ℝ) ≤ ∫ t in (0 : ℝ)..(-d2), Real.exp (-t ^ 2 / 2) := by
      linarith [hI2.1]
    have hJhi : (∫ t in (0 : ℝ)..(-d2), Real.exp (-t ^ 2 / 2)) ≤ 0.0938136 := by
      linarith [hI2.2]
    have hI1pos : (0 : ℝ) ≤ ∫ t in (0 : ℝ)..d1, Real.exp (-t ^ 2 / 2) := by linarith
    have hJpos : (0 : ℝ) ≤ ∫ t in (0 : ℝ)..(-d2), Real.exp (-t ^ 2 / 2) := by linarith
    have huI1lo : (0.0422279 : ℝ) ≤
        (Real.sqrt (2 * Real.pi))⁻¹ * ∫ t in (0 : ℝ)..d1, Real.exp (-t ^ 2 / 2) := by
      calc (0.0422279 : ℝ) ≤ 0.3989421 * 0.1058497 := by norm_num
        _ ≤ _ := mul_le_mul hu2 hI1lo (by norm_num) hupos.le
    have huI1hi : ((Real.sqrt (2 * Real.pi))⁻¹ *
        ∫ t in (0 : ℝ)..d1, Real.exp (-t ^ 2 / 2)) ≤ 0.0422288 := by
      calc (Real.sqrt (2 * Real.pi))⁻¹ * ∫ t in (0 : ℝ)..d1, Real.exp (-t ^ 2 / 2)
          ≤ 0.3989424 * 0.1058518 := mul_le_mul hu1 hI1hi hI1pos (by norm_num)
        _ ≤ 0.0422288 := by norm_num
    have huJlo : (0.0374254 : ℝ) ≤
        (Real.sqrt (2 * Real.pi))⁻¹ * ∫ t in (0 : ℝ)..(-d2), Real.exp (-t ^ 2 / 2) := by
      calc (0.0374254 : ℝ) ≤ 0.3989421 * 0.0938117 := by norm_num
        _ ≤ _ := mul_le_mul hu2 hJlo (by norm_num) hupos.le
    have huJhi : ((Real.sqrt (2 * Real.pi))⁻¹ *
        ∫ t in (0 : ℝ)..(-d2), Real.exp (-t ^ 2 / 2)) ≤ 0.0374263 := by
      calc (Real.sqrt (2 * Real.pi))⁻¹ * ∫ t in (0 : ℝ)..(-d2), Real.exp (-t ^ 2 / 2)
          ≤ 0.3989424 * 0.0938136 := mul_le_mul hu1 hJhi hJpos (by norm_num)
        _ ≤ 0.0374263 := by norm_num
    have hEuJlo : (0.0356001 : ℝ) ≤ Real.exp (-(1 / 20)) *
        ((Real.sqrt (2 * Real.pi))⁻¹ * ∫ t in (0 : ℝ)..(-d2), Real.exp (-t ^ 2 / 2)) := by
      calc (0.0356001 : ℝ) ≤ 0.9512294 * 0.0374254 := by norm_num
        _ ≤ _ := mul_le_mul hE.1 huJlo (by norm_num) (by linarith [hE.1])
    have hEuJhi : (Real.exp (-(1 / 20)) *
        ((Real.sqrt (2 * Real.pi))⁻¹ * ∫ t in (0 : ℝ)..(-d2), Real.exp (-t ^ 2 / 2))) ≤
        0.0356011 := by
      calc Real.exp (-(1 / 20)) *
          ((Real.sqrt (2 * Real.pi))⁻¹ * ∫ t in (0 : ℝ)..(-d2), Real.exp (-t ^ 2 / 2))
          ≤ 0.9512295 * 0.0374263 :=
            mul_le_mul hE.2 huJhi (mul_nonneg hupos.le hJpos) (by norm_num)
        _ ≤ 0.0356011 := by norm_num
    have hId2 : (∫ t in (0 : ℝ)..d2, Real.exp (-t ^ 2 / 2)) =
        -∫ t in (0 : ℝ)..(-d2), Real.exp (-t ^ 2 / 2) := by
      have h := I_neg (-d2)
      rwa [neg_neg] at h
    have hEarg : (-0.05 * 1 : ℝ) = -(1 / 20) := by norm_num
    unfold analyticalPrice
    rw [stdNormalCDF_eq d1, stdNormalCDF_eq d2, hEarg, hId2, abs_lt]
    constructor
    · nlinarith [hE.1, hE.2]
    · nlinarith [hE.1, hE.2]

end

end Analysis
